import Mathlib

/-!
# Verification of the starfx action/middleware/store core

Shallow embedding of the starfx runtime pieces referenced by the spec:

* the key deriver (`src/query/create-key.ts`): `deepSortObject`,
  `tinySimpleHash`, `padStart`, `createKey`;
* the middleware pipeline (`src/compose.ts`): `compose`/`dispatch` with the
  single-call-`next` guard;
* the action bus (`src/action.ts` `emit`, `src/queue.ts` `createFilterQueue`,
  `matcher` from the store module);
* the store update pipeline (`src/store/store.ts`);
* the `takeLatest` and `poll` supervisors (`src/action.ts`, `src/query/util.ts`).

JavaScript values reaching `createKey` are modelled by the mutual inductive
`JValue`/`JList`/`JFields` below (arrays and object field lists get their own
list types so that every recursive function is structural and hence reducible
by the kernel).
-/

mutual

/-- Model of the JS values a payload can hold.  `jundef` is JS `undefined`
(an absent payload), `jfunc` stands for a non-JSON-serializable value such as
a function or a symbol. -/
inductive JValue where
  | jnull : JValue
  | jbool : Bool → JValue
  | jnum : Int → JValue
  | jstr : String → JValue
  | jarr : JList → JValue
  | jobj : JFields → JValue
  | jundef : JValue
  | jfunc : JValue

/-- A JS array of values. -/
inductive JList where
  | nil : JList
  | cons : JValue → JList → JList

/-- The ordered field list of a JS object (insertion order of keys). -/
inductive JFields where
  | nil : JFields
  | cons : String → JValue → JFields → JFields

end

/-- `isObject` from `src/query/util.ts`:
`typeof obj === "object" && obj !== null`.  Arrays are objects in JS. -/
def isObject : JValue → Bool
  | .jarr _ => true
  | .jobj _ => true
  | _ => false

/-- Lexicographic comparison of character lists, by code point.  This is the
default JS string comparison (`Array.prototype.sort` without a comparator
compares the stringified keys by UTF-16 code units; on the basic multilingual
plane that is code-point order). -/
def lexLe : List Char → List Char → Bool
  | [], _ => true
  | _ :: _, [] => false
  | c :: cs, d :: ds =>
    if c < d then true
    else if d < c then false
    else lexLe cs ds

/-- JS string `<=` on the two strings' characters. -/
def strLe (a b : String) : Bool := lexLe a.data b.data

/-- Insert a field into a field list sorted by key. -/
def sortedInsert (k : String) (v : JValue) : JFields → JFields
  | .nil => .cons k v .nil
  | .cons k2 v2 rest =>
    if strLe k k2 then .cons k v (.cons k2 v2 rest)
    else .cons k2 v2 (sortedInsert k v rest)

/-- `Object.keys(opts).sort()` applied to a field list: sort the fields by
key (string order), keeping values attached to their keys. -/
def sortFields : JFields → JFields
  | .nil => .nil
  | .cons k v rest => sortedInsert k v (sortFields rest)

/-- `Object.keys` of a JS array: the element list tagged with its stringified
indices (starting at `i`). -/
def keyFields (i : Nat) : JList → JFields
  | .nil => .nil
  | .cons v rest => .cons (toString i) v (keyFields (i + 1) rest)

mutual

/-- `deepSortObject` from `src/query/create-key.ts`.  Non-objects are
returned as given.  For an object (or array: `isObject` is true for arrays,
and `Object.keys` of an array yields its stringified indices) the keys are
sorted and every object-valued entry is recursively sorted.  The source sorts
the keys and then rewrites the values inside the `reduce`; here the values
are rewritten first and the fields sorted afterwards — the two commute since
sorting only permutes entries and the rewrite never touches a key. -/
def deepSortObject : JValue → JValue
  | .jobj fs => .jobj (sortFields (deepSortFields fs))
  | .jarr xs => .jobj (sortFields (keyFields 0 (deepSortList xs)))
  | v => v

/-- Value rewrite of `deepSortObject` over an object's fields: `res[key] =
opts[key]`, replaced by `deepSortObject(opts[key])` when that value is a
(truthy) object. -/
def deepSortFields : JFields → JFields
  | .nil => .nil
  | .cons k v rest =>
    .cons k (if isObject v then deepSortObject v else v) (deepSortFields rest)

/-- The same value rewrite elementwise over an array (the array's indices
become the keys, which the rewrite leaves in place). -/
def deepSortList : JList → JList
  | .nil => .nil
  | .cons v rest =>
    .cons (if isObject v then deepSortObject v else v) (deepSortList rest)

end

mutual

/-- The sorting the spec describes: recursively sort object keys while
preserving arrays (and their element order).  This is the reference
definition claim C4 compares `deepSortObject` against; it is *not* translated
from the source. -/
def specSort : JValue → JValue
  | .jobj fs => .jobj (sortFields (specSortFields fs))
  | .jarr xs => .jarr (specSortList xs)
  | v => v

/-- `specSort` over an object's fields. -/
def specSortFields : JFields → JFields
  | .nil => .nil
  | .cons k v rest => .cons k (specSort v) (specSortFields rest)

/-- `specSort` over an array's elements. -/
def specSortList : JList → JList
  | .nil => .nil
  | .cons v rest => .cons (specSort v) (specSortList rest)

end

/-- JSON string escaping of `"` and `\` (the characters relevant to the
payloads modelled here), wrapped in quotes. -/
def jsonQuote (s : String) : String :=
  "\"" ++ String.join (s.data.map fun c =>
    if c = '"' then "\\\""
    else if c = '\\' then "\\\\"
    else String.singleton c) ++ "\""

mutual

/-- Model of `JSON.stringify`.  Returns `none` exactly when JS would return
`undefined` (top-level `undefined`, function or symbol). -/
def stringify : JValue → Option String
  | .jnull => some "null"
  | .jbool b => some (if b then "true" else "false")
  | .jnum n => some (toString n)
  | .jstr s => some (jsonQuote s)
  | .jarr xs => some ("[" ++ stringifyList xs ++ "]")
  | .jobj fs => some ("\x7b" ++ String.intercalate "," (stringifyFields fs) ++ "\x7d")
  | .jundef => none
  | .jfunc => none

/-- Array elements: non-serializable entries render as `null`. -/
def stringifyList : JList → String
  | .nil => ""
  | .cons v .nil => (stringify v).getD "null"
  | .cons v (.cons w rest) =>
    (stringify v).getD "null" ++ "," ++ stringifyList (.cons w rest)

/-- Object members: entries whose value does not serialize are omitted. -/
def stringifyFields : JFields → List String
  | .nil => []
  | .cons k v rest =>
    match stringify v with
    | none => stringifyFields rest
    | some s => (jsonQuote k ++ ":" ++ s) :: stringifyFields rest

end

/-- The sixteen lowercase hex digit characters, as `Number.prototype.toString(16)`
produces them. -/
def hexChar (n : Nat) : Char :=
  "0123456789abcdef".data.getD n '?'

/-- Hex digits of `n`, most significant first; the first argument bounds the
digit count (8 suffices for anything below `2^32`). -/
def hexDigits : Nat → Nat → List Char
  | 0, _ => []
  | fuel + 1, n =>
    if n < 16 then [hexChar n]
    else hexDigits fuel (n / 16) ++ [hexChar (n % 16)]

/-- `Number.prototype.toString(16)` on a (signed) integer: lowercase hex,
with a leading minus sign for negative values. -/
def jsHexString (i : Int) : String :=
  if i < 0 then "-" ++ String.mk (hexDigits 8 i.natAbs)
  else String.mk (hexDigits 8 i.toNat)

/-- Reinterpret a `Nat` below `2^32` as JS's signed 32-bit integer value
(what `^` and `Math.imul` produce). -/
def toInt32 (n : Nat) : Int :=
  if n < 2147483648 then (n : Int) else (n : Int) - 4294967296

/-- `Math.imul` on two unsigned 32-bit representatives. -/
def imul32 (a b : Nat) : Nat := (a * b) % 4294967296

/-- The UTF-16 code units of a string (`charCodeAt`); the payloads modelled
here stay in the basic multilingual plane, where a code unit is the code
point. -/
def charCodes (s : String) : List Nat := s.data.map Char.toNat

/-- `tinySimpleHash` from `src/query/create-key.ts`:
`h = Math.imul(h ^ s.charCodeAt(i++), 9 ** 9)` starting from `9`, then
`h ^ (h >>> 9)`.  The result is the unsigned 32-bit representative of the
JS (signed) result; `9 ** 9 = 387420489`. -/
def tinySimpleHash (s : String) : Nat :=
  let h := (charCodes s).foldl (fun h c => imul32 (Nat.xor h c) 387420489) 9
  Nat.xor h (h / 512)

/-- `padStart` from `src/query/create-key.ts`: prepend `'0'` until the length
reaches `len` (closed form of the source's `while` loop). -/
def padStart (hash : String) (len : Nat) : String :=
  String.mk (List.replicate (len - hash.length) '0') ++ hash

/-- `createKey` from `src/query/create-key.ts`.  An absent (`undefined`)
payload yields the bare name; otherwise the deep-sorted payload is
JSON-encoded, and a falsy encoding (JS `undefined`, merged here with the
unreachable `""`) again yields the bare name; otherwise the hash segment is
appended.  The computed hash string is never empty, so its truthiness check
always passes. -/
def createKey (name : String) (payload : JValue) : String :=
  let normJsonString : Option String :=
    match payload with
    | .jundef => none
    | p => stringify (deepSortObject p)
  match normJsonString with
  | none => name
  | some s =>
    if s = "" then name
    else name ++ "|" ++ padStart (jsHexString (toInt32 (tinySimpleHash s))) 8

/-- Hex digit test on a character (lowercase letters, as produced by
`toString(16)`). -/
def isHexDigitChar (c : Char) : Bool :=
  c.isDigit || ('a' ≤ c && c ≤ 'f')

/-! ## The middleware pipeline (`src/compose.ts`)

`compose(middleware)` returns `composeFn(context, mdw?)`, which runs
`dispatch(0)` with a mutable `index` starting at `-1`.  `dispatch(i)` throws
`"next() called multiple times"` when `i <= index`, records `index = i`,
resolves the stage (`middleware[i]`, or the optional tail `mdw` at
`i === middleware.length`, or nothing), and runs it with `next = dispatch(i+1)`.

A stage is modelled syntactically by how many times it invokes its `next`
continuation (`0` = short-circuit, `1` = normal, `ge 2` = the programming
error the pipeline must reject); the context itself plays no role in the
control flow, so the state tracked is the `index` guard, the trace of stage
indices that started executing, and the pending error. -/

/-- Run state of one execution of a composed pipeline. -/
structure PipeSt where
  index : Int
  trace : List Nat
  err : Option String
deriving Repr, DecidableEq

/-- A stage's successive `next()` invocations: apply `f` in sequence `k`
times (an erroring application leaves the state fixed, see `dispatchF`). -/
def iterN (f : PipeSt → PipeSt) : Nat → PipeSt → PipeSt
  | 0, s => s
  | k + 1, s => iterN f k (f s)

/-- Stage resolution of `dispatch(i)`: `middleware[i]`, or the optional tail
middleware at `i === middleware.length`, or nothing. -/
def stageAt (mws : List Nat) (tail : Option Nat) (i : Nat) : Option Nat :=
  if h : i < mws.length then some (mws.get ⟨i, h⟩)
  else if i = mws.length then tail
  else none

/-- The error message thrown by `dispatch` on a repeated `next()` call. -/
def nextTwiceMsg : String := "next() called multiple times"

/-- `dispatch(i)` of the composed pipeline.  The first argument of the
recursion is fuel bounding the nesting depth (the source recursion nests at
most `middleware.length + 2` deep; `composeRun` supplies enough, and the
characterization below shows the fuel branch is then unreachable).  A state
that already carries an error is returned unchanged, modelling an exception
propagating out of the generator. -/
def dispatchF (mws : List Nat) (tail : Option Nat) (fuel : Nat) :
    Nat → PipeSt → PipeSt :=
  Nat.rec (motive := fun _ => Nat → PipeSt → PipeSt)
    (fun _ s =>
      if s.err.isSome then s else { s with err := some "out of fuel" })
    (fun _ ih i s =>
      if s.err.isSome then s
      else if (i : Int) ≤ s.index then { s with err := some nextTwiceMsg }
      else
        let s1 : PipeSt := { s with index := (i : Int) }
        match stageAt mws tail i with
        | none => s1
        | some k => iterN (ih (i + 1)) k { s1 with trace := s1.trace ++ [i] })
    fuel

/-- One full run of `composeFn(ctx, tail)`: `dispatch(0)` from `index = -1`
with an empty trace. -/
def composeRun (mws : List Nat) (tail : Option Nat) : PipeSt :=
  dispatchF mws tail (mws.length + tail.toList.length + 2) 0
    { index := -1, trace := [], err := none }

/-- Reference walk over the stage list (a stage's entry is its `next()`-call
count): `m` counts the stages that execute, `stopped` records whether the
walk ended at a stage that never called `next`, `dbl` whether some executed
stage called `next` at least twice. -/
structure RunSpec where
  m : Nat
  stopped : Bool
  dbl : Bool
deriving Repr, DecidableEq

/-- The walk itself. -/
def runSpec : List Nat → RunSpec
  | [] => ⟨0, false, false⟩
  | k :: rest =>
    if k = 0 then ⟨1, true, false⟩
    else
      let r := runSpec rest
      ⟨r.m + 1, r.stopped, r.dbl || decide (2 ≤ k)⟩

/-! ## The action bus (`src/action.ts`, `src/queue.ts`, `matcher`)

An action is a `type` string plus a payload.  A subscriber created by
`useActions(pattern)` attaches a `createFilterQueue(matcher(pattern))` to the
shared signal; `emit` pushes an action (or each element of an array of
actions, in array order) into every attached queue.  The bus is modelled by
the ordered list of emitted actions, and a subscriber's queue by the list of
buffered actions. -/

/-- A dispatched action (`{ type, payload }`). -/
structure AnyActionM where
  type : String
  payload : JValue

mutual

/-- A subscription pattern, from `matcher`: a type string (`"*"` is the
wildcard), an array of sub-patterns, a bare predicate function, or an
action creator / thunk carrying a string identity (matched via its
`toString`). -/
inductive ActionPat where
  | str : String → ActionPat
  | arr : ActionPatList → ActionPat
  | pfn : (AnyActionM → Bool) → ActionPat
  | creator : String → ActionPat

/-- List of sub-patterns of an array pattern. -/
inductive ActionPatList where
  | nil : ActionPatList
  | cons : ActionPat → ActionPatList → ActionPatList

end

mutual

/-- `matcher(pattern)` from the store module: `"*"` matches every (truthy)
action, a string matches by type equality, an array matches when some
element does, a creator/thunk by its string identity, a plain function is
the predicate itself. -/
def matcher : ActionPat → AnyActionM → Bool
  | .str s => if s = "*" then fun _ => true else fun a => decide (s = a.type)
  | .arr ps => fun a => matcherList ps a
  | .pfn f => f
  | .creator t => fun a => decide (t = a.type)

/-- `pattern.some((p) => matcher(p)(input))`. -/
def matcherList : ActionPatList → AnyActionM → Bool
  | .nil, _ => false
  | .cons p rest, a => matcher p a || matcherList rest a

end

/-- `emit` (`src/action.ts`): an array dispatch sends each element in array
order (the empty array sends nothing); a single action is sent as is. -/
def emitActions : AnyActionM ⊕ List AnyActionM → List AnyActionM
  | .inl a => [a]
  | .inr as => as

/-- The bus content after a sequence of `emit` calls, in send order. -/
def dispatchedStream (batches : List (AnyActionM ⊕ List AnyActionM)) :
    List AnyActionM :=
  (batches.map emitActions).join

/-- `createFilterQueue(predicate).add` (`src/queue.ts`): enqueue the value
only when the predicate accepts it. -/
def filterQueueAdd (pred : AnyActionM → Bool) (buf : List AnyActionM)
    (v : AnyActionM) : List AnyActionM :=
  if pred v then buf ++ [v] else buf

/-- A subscriber's queue after all sends of the dispatch sequence reached
its filter queue. -/
def observeQueue (pred : AnyActionM → Bool)
    (batches : List (AnyActionM ⊕ List AnyActionM)) : List AnyActionM :=
  (dispatchedStream batches).foldl (filterQueueAdd pred) []

/-! ## The store update pipeline (`src/store/store.ts`)

`createUpdater` composes `[updateMdw, ...middleware, logMdw,
notifyChannelMdw, notifyListenersMdw]` and `update(updater)` runs the
composition over a fresh `UpdaterCtx`.  Every one of these stages calls
`next` exactly once, so the index guard of `compose` is inert and the
composition is plain sequential nesting; middleware are modelled here as
functions receiving the explicit `next` continuation.  `produceWithPatches`
(immer, external to the repository) applied to a recipe that runs the
mutators in order over the draft is modelled as: next state = fold of the
mutators, patch list = an abstract `diff` of old and new state.  Observable
effects are recorded as events: `patchesSet`/`commit` for the mutation stage
(`ctx.patches = patches` then `setState(nextState)`), `userPre`/`userPost`
around each schema/user middleware, `logAction` for the store-update action
dispatched on the bus, `chanSend` for the `StoreUpdateContext` channel
signal, `notifyListeners` for the raw listener callbacks. -/

/-- Observable events of one pass through the update pipeline. -/
inductive StoreEv (S P : Type) where
  | patchesSet : List P → StoreEv S P
  | commit : S → StoreEv S P
  | userPre : Nat → StoreEv S P
  | userPost : Nat → StoreEv S P
  | logAction : StoreEv S P
  | chanSend : StoreEv S P
  | notifyListeners : StoreEv S P

/-- The store side: current snapshot plus the event log. -/
structure UpdSt (S P : Type) where
  state : S
  events : List (StoreEv S P)

/-- `UpdaterCtx`: the mutators handed to `update()` (one or an array) and
the patch list filled in by the mutation stage. -/
structure UpdaterCtxM (S P : Type) where
  updater : (S → S) ⊕ List (S → S)
  patches : List P

/-- A store middleware: context/store pair and an explicit `next`
continuation. -/
def StoreMdw (S P : Type) :=
  (UpdaterCtxM S P × UpdSt S P) →
    ((UpdaterCtxM S P × UpdSt S P) → (UpdaterCtxM S P × UpdSt S P)) →
    (UpdaterCtxM S P × UpdSt S P)

/-- `compose` specialised to stages that call `next` exactly once: running
the list nests each stage around the rest (running out of stages is
`dispatch(middleware.length)` with no tail, a no-op). -/
def composeSeq {S P : Type} :
    List (StoreMdw S P) → (UpdaterCtxM S P × UpdSt S P) →
    (UpdaterCtxM S P × UpdSt S P)
  | [], c => c
  | m :: ms, c => m c (composeSeq ms)

/-- Append one event to the log. -/
def pushEv {S P : Type} (e : StoreEv S P) (c : UpdaterCtxM S P × UpdSt S P) :
    UpdaterCtxM S P × UpdSt S P :=
  (c.1, { c.2 with events := c.2.events ++ [e] })

/-- `Array.isArray(ctx.updater)` normalisation of `updateMdw`. -/
def normUpdater {S : Type} : (S → S) ⊕ List (S → S) → List (S → S)
  | .inl f => [f]
  | .inr fs => fs

/-- `upds.forEach((updater) => updater(draft))`: the mutators applied in
list order. -/
def applyAll {S : Type} (us : List (S → S)) (s : S) : S :=
  us.foldl (fun st u => u st) s

/-- `updateMdw` of `defaultStoreUpdater` (and of `createSchema`): normalise
the updater list, run one `produceWithPatches` over all of them, record the
patch list on the context, install the snapshot, then `next`. -/
def updateMdw {S P : Type} (diff : S → S → List P) : StoreMdw S P :=
  fun c next =>
    let upds := normUpdater c.1.updater
    let nextState := applyAll upds c.2.state
    let patches := diff c.2.state nextState
    next ({ c.1 with patches := patches },
      { state := nextState,
        events := c.2.events ++ [.patchesSet patches, .commit nextState] })

/-- An arbitrary schema/user middleware, abstracted to its observable
behaviour: do something, call `next` once, do something after. -/
def userMdw {S P : Type} (i : Nat) : StoreMdw S P :=
  fun c next => pushEv (.userPost i) (next (pushEv (.userPre i) c))

/-- `logMdw`: dispatch the store-update action onto the bus, then `next`. -/
def logMdw {S P : Type} : StoreMdw S P :=
  fun c next => next (pushEv .logAction c)

/-- `notifyChannelMdw`: send on the store-changed channel, then `next`. -/
def notifyChannelMdw {S P : Type} : StoreMdw S P :=
  fun c next => next (pushEv .chanSend c)

/-- `notifyListenersMdw`: run every raw listener, then `next`. -/
def notifyListenersMdw {S P : Type} : StoreMdw S P :=
  fun c next => next (pushEv .notifyListeners c)

/-- The schema/user middleware list of the store options. -/
def userMdws (S P : Type) (n : Nat) : List (StoreMdw S P) :=
  (List.range n).map userMdw

/-- `createUpdater`: the fixed pipeline
`[updateMdw, ...middleware, logMdw, notifyChannelMdw, notifyListenersMdw]`. -/
def createUpdater {S P : Type} (diff : S → S → List P) (n : Nat) :
    (UpdaterCtxM S P × UpdSt S P) → (UpdaterCtxM S P × UpdSt S P) :=
  composeSeq ([updateMdw diff] ++ userMdws S P n ++
    [logMdw, notifyChannelMdw, notifyListenersMdw])

/-- `update(updater)`: build a fresh `UpdaterCtx` (`patches = []`) and run
the composed pipeline against the current snapshot. -/
def updateRun {S P : Type} (diff : S → S → List P) (n : Nat)
    (ups : (S → S) ⊕ List (S → S)) (s0 : S) :
    UpdaterCtxM S P × UpdSt S P :=
  createUpdater diff n (⟨ups, []⟩, ⟨s0, []⟩)

/-- The snapshots installed during a run (`setState` calls). -/
def commitsOf {S P : Type} (evs : List (StoreEv S P)) : List S :=
  evs.filterMap fun e =>
    match e with
    | .commit s => some s
    | _ => none

/-- The patch lists recorded during a run. -/
def patchSetsOf {S P : Type} (evs : List (StoreEv S P)) : List (List P) :=
  evs.filterMap fun e =>
    match e with
    | .patchesSet ps => some ps
    | _ => none

/-! ## The `takeLatest` supervisor (`src/action.ts`)

`takeLatest` loops over the matching actions of its subscription; for each
action it first halts the previously spawned task (`yield* lastTask.halt()`
— an Effection halt suspends until the halted task has run its cleanup and
is dead; halting an already finished task is a no-op) and only then spawns
the new handler instance.  A run is modelled over an oracle listing, per
matching action, whether the currently running instance (if any) finished on
its own before that action arrived; the events record spawns and the two
ways an instance ends. -/

/-- Events of a `takeLatest` run: instance `i` spawned, instance `i` halted
(cleanup complete), instance `i` finished on its own. -/
inductive TLEv where
  | spawned : Nat → TLEv
  | haltDone : Nat → TLEv
  | selfDone : Nat → TLEv
deriving Repr, DecidableEq

/-- One iteration of the `takeLatest` loop for the `i`-th matching action:
if the previous instance is still running it is halted to completion before
the spawn; if it already finished, the `halt()` call is a no-op. -/
def tlStep (running : Option Nat) (completes : Bool) (i : Nat) :
    Option Nat × List TLEv :=
  match running, completes with
  | some j, true => (some i, [.selfDone j, .spawned i])
  | some j, false => (some i, [.haltDone j, .spawned i])
  | none, _ => (some i, [.spawned i])

/-- The `takeLatest` loop from a given state (`running` = the task stored in
`lastTask`, if it has not finished; `i` = index of the next action). -/
def tlGo : Option Nat → Nat → List Bool → List TLEv
  | _, _, [] => []
  | running, i, c :: rest =>
    (tlStep running c i).2 ++ tlGo (tlStep running c i).1 (i + 1) rest

/-- A complete `takeLatest` run over a sequence of matching actions. -/
def takeLatestRun (oracle : List Bool) : List TLEv :=
  tlGo none 0 oracle

/-- Fold the events over a set (list) of currently alive instances: spawns
add an instance, either kind of end removes it. -/
def aliveFold (acc : List Nat) (evs : List TLEv) : List Nat :=
  evs.foldl
    (fun acc ev =>
      match ev with
      | .spawned i => i :: acc
      | .haltDone i => acc.erase i
      | .selfDone i => acc.erase i)
    acc

/-! ## The `poll` supervisor (`src/query/util.ts`)

`poll(parentTimer, cancelType?)` waits for the triggering action type, then
races `fire` (run the handler, sleep, repeat) against
`take(cancelType || actionType)`; the winning cancel take halts the fire
loop and the outer loop waits for the next trigger.  The supervisor is
modelled as a state machine over a stream of dispatched actions and timer
expirations. -/

/-- Phase of the poll supervisor: blocked on the outer `take(actionType)`,
or inside the race with the fire loop running at the given interval. -/
inductive PollPhase where
  | waiting : PollPhase
  | polling : Nat → PollPhase
deriving Repr, DecidableEq

/-- Observable events: a polling run started with the resolved interval, the
handler fired once, the cancel take won the race and stopped the loop. -/
inductive PollEv where
  | started : Nat → PollEv
  | fired : PollEv
  | stopped : PollEv
deriving Repr, DecidableEq

/-- Inputs: a dispatched action (type plus the optional `timer` payload
override) or the expiry of the fire loop's sleep. -/
inductive PollIn where
  | act : String → Option Nat → PollIn
  | timerExpired : PollIn
deriving Repr, DecidableEq

/-- `const cancel = cancelType || actionType` (an empty string is falsy). -/
def resolveCancel (actionType : String) (cancelType : Option String) : String :=
  match cancelType with
  | some c => if c = "" then actionType else c
  | none => actionType

/-- `const timer = action.payload?.timer || parentTimer` (`0` is falsy). -/
def resolveTimer (parentTimer : Nat) (p : Option Nat) : Nat :=
  match p with
  | some t => if t = 0 then parentTimer else t
  | none => parentTimer

/-- One step of the poll supervisor.  Waiting: only the triggering action
type starts a run (handler invoked once immediately).  Polling: an action of
the resolved cancel type wins the race and stops the loop (back to waiting);
any other action is not taken by anything and is ignored; a sleep expiry
fires the handler again. -/
def pollStep (actionType : String) (cancelType : Option String)
    (parentTimer : Nat) : PollPhase → PollIn → PollPhase × List PollEv
  | .waiting, .act t p =>
    if t = actionType then
      (.polling (resolveTimer parentTimer p),
        [.started (resolveTimer parentTimer p), .fired])
    else (.waiting, [])
  | .waiting, .timerExpired => (.waiting, [])
  | .polling timer, .act t _ =>
    if t = resolveCancel actionType cancelType then (.waiting, [.stopped])
    else (.polling timer, [])
  | .polling timer, .timerExpired => (.polling timer, [.fired])

/-- Run the poll supervisor over an input stream, accumulating events. -/
def pollRun (actionType : String) (cancelType : Option String)
    (parentTimer : Nat) (inputs : List PollIn) : PollPhase × List PollEv :=
  inputs.foldl
    (fun st inp =>
      ((pollStep actionType cancelType parentTimer st.1 inp).1,
        st.2 ++ (pollStep actionType cancelType parentTimer st.1 inp).2))
    (.waiting, [])

/-! ## Sorting lemmas for `sortFields` -/

theorem lexLe_total : (a b : List Char) → lexLe a b = true ∨ lexLe b a = true
  | [], _ => Or.inl rfl
  | _ :: _, [] => Or.inr rfl
  | c :: cs, d :: ds => by
    by_cases h1 : c < d
    · left
      simp [lexLe, h1]
    · by_cases h2 : d < c
      · right
        simp [lexLe, h1, h2]
      · have he : c = d := le_antisymm (not_lt.mp h2) (not_lt.mp h1)
        subst he
        rcases lexLe_total cs ds with h | h
        · left
          simp [lexLe, h, lt_irrefl]
        · right
          simp [lexLe, h, lt_irrefl]

theorem lexLe_trans : (a b c : List Char) →
    lexLe a b = true → lexLe b c = true → lexLe a c = true
  | [], _, _, _, _ => rfl
  | a :: as, [], _, h1, _ => by simp [lexLe] at h1
  | _ :: _, _ :: _, [], _, h2 => by simp [lexLe] at h2
  | a :: as, b :: bs, c :: cs, h1, h2 => by
    by_cases hab : a < b
    · by_cases hbc : b < c
      · simp [lexLe, lt_trans hab hbc]
      · by_cases hcb : c < b
        · simp [lexLe, hbc, hcb] at h2
        · have : b = c := le_antisymm (not_lt.mp hcb) (not_lt.mp hbc)
          subst this
          simp [lexLe, hab]
    · by_cases hba : b < a
      · simp [lexLe, hab, hba] at h1
      · have : a = b := le_antisymm (not_lt.mp hba) (not_lt.mp hab)
        subst this
        by_cases hac : a < c
        · simp [lexLe, hac]
        · by_cases hca : c < a
          · simp [lexLe, hac, hca] at h2
          · have : a = c := le_antisymm (not_lt.mp hca) (not_lt.mp hac)
            subst this
            simp only [lexLe, lt_irrefl, if_neg, if_false] at h1 h2 ⊢
            exact lexLe_trans as bs cs h1 h2

theorem strLe_of_not_strLe (a b : String) (h : strLe a b = false) :
    strLe b a = true := by
  rcases lexLe_total a.data b.data with h2 | h2
  · exact absurd h2 (by simp [strLe] at h; simp [h])
  · exact h2

theorem strLe_trans (a b c : String) (h1 : strLe a b = true)
    (h2 : strLe b c = true) : strLe a c = true :=
  lexLe_trans a.data b.data c.data h1 h2

theorem deepSortFields_sortedInsert (k : String) (v : JValue) :
    (gs : JFields) →
    deepSortFields (sortedInsert k v gs) =
      sortedInsert k (if isObject v then deepSortObject v else v) (deepSortFields gs)
  | .nil => rfl
  | .cons k2 v2 rest => by
    cases h : strLe k k2
    · simp [sortedInsert, deepSortFields, h, deepSortFields_sortedInsert k v rest]
    · simp [sortedInsert, deepSortFields, h]

/-- The value rewrite of `deepSortObject` commutes with key sorting (it never
touches a key). -/
theorem deepSortFields_sortFields :
    (gs : JFields) → deepSortFields (sortFields gs) = sortFields (deepSortFields gs)
  | .nil => rfl
  | .cons k v rest => by
    simp [sortFields, deepSortFields, deepSortFields_sortedInsert,
      deepSortFields_sortFields rest]

theorem sortedInsert_comm (k k2 : String) (v v2 : JValue)
    (hk : strLe k k2 = false) :
    (hs : JFields) →
    sortedInsert k2 v2 (sortedInsert k v hs) =
      sortedInsert k v (sortedInsert k2 v2 hs)
  | .nil => by
    have h2 : strLe k2 k = true := strLe_of_not_strLe k k2 hk
    simp [sortedInsert, hk, h2]
  | .cons k3 v3 rest => by
    cases h23 : strLe k2 k3
    · have h13 : strLe k k3 = false := by
        cases hv : strLe k k3
        · rfl
        · have h32 : strLe k3 k2 = true := strLe_of_not_strLe k2 k3 h23
          rw [strLe_trans k k3 k2 hv h32] at hk
          exact Bool.noConfusion hk
      simp [sortedInsert, h23, h13, sortedInsert_comm k k2 v v2 hk rest]
    · cases h13 : strLe k k3
      · simp [sortedInsert, h23, h13, hk]
      · have h2 : strLe k2 k = true := strLe_of_not_strLe k k2 hk
        simp [sortedInsert, h23, h13, hk, h2]

theorem sortFields_sortedInsert (k : String) (v : JValue) :
    (gs : JFields) →
    sortFields (sortedInsert k v gs) = sortedInsert k v (sortFields gs)
  | .nil => rfl
  | .cons k2 v2 rest => by
    cases h : strLe k k2
    · simp [sortedInsert, sortFields, h, sortFields_sortedInsert k v rest,
        sortedInsert_comm k k2 v v2 h]
    · simp [sortedInsert, sortFields, h]

/-- Sorting the fields twice is the same as sorting them once. -/
theorem sortFields_sortFields :
    (gs : JFields) → sortFields (sortFields gs) = sortFields gs
  | .nil => rfl
  | .cons k v rest => by
    simp [sortFields, sortFields_sortedInsert, sortFields_sortFields rest]

/-! ## `deepSortObject` only depends on the spec-sorted form -/

theorem isObject_specSort (v : JValue) : isObject (specSort v) = isObject v := by
  cases v <;> rfl

theorem specSort_of_not_isObject (v : JValue) (h : isObject v = false) :
    specSort v = v := by
  cases v <;> first | rfl | simp [isObject] at h

mutual

theorem deepSortObject_specSort (v : JValue) :
    deepSortObject (specSort v) = deepSortObject v :=
  match v with
  | .jnull => rfl
  | .jbool _ => rfl
  | .jnum _ => rfl
  | .jstr _ => rfl
  | .jundef => rfl
  | .jfunc => rfl
  | .jobj fs => by
    show deepSortObject (.jobj (sortFields (specSortFields fs))) = _
    simp only [deepSortObject, deepSortFields_sortFields, sortFields_sortFields,
      deepSortFields_specSortFields fs]
  | .jarr xs => by
    show deepSortObject (.jarr (specSortList xs)) = _
    simp only [deepSortObject, deepSortList_specSortList xs]

theorem deepSortFields_specSortFields (fs : JFields) :
    deepSortFields (specSortFields fs) = deepSortFields fs :=
  match fs with
  | .nil => rfl
  | .cons k v rest => by
    show JFields.cons k
        (if isObject (specSort v) then deepSortObject (specSort v) else specSort v)
        (deepSortFields (specSortFields rest)) = _
    rw [isObject_specSort, deepSortFields_specSortFields rest]
    by_cases h : isObject v = true
    · simp only [h, if_pos, deepSortObject_specSort v, deepSortFields]
    · have h0 : isObject v = false := by
        cases hb : isObject v
        · rfl
        · exact absurd hb h
      simp only [h0, if_neg, Bool.false_eq_true, specSort_of_not_isObject v h0,
        deepSortFields]

theorem deepSortList_specSortList (xs : JList) :
    deepSortList (specSortList xs) = deepSortList xs :=
  match xs with
  | .nil => rfl
  | .cons v rest => by
    show JList.cons
        (if isObject (specSort v) then deepSortObject (specSort v) else specSort v)
        (deepSortList (specSortList rest)) = _
    rw [isObject_specSort, deepSortList_specSortList rest]
    by_cases h : isObject v = true
    · simp only [h, if_pos, deepSortObject_specSort v, deepSortList]
    · have h0 : isObject v = false := by
        cases hb : isObject v
        · rfl
        · exact absurd hb h
      simp only [h0, if_neg, Bool.false_eq_true, specSort_of_not_isObject v h0,
        deepSortList]

end

/-! ## `createKey` facts -/

/-- Unfolding of `createKey` through the `undefined` test (for `undefined`
both sides collapse to the bare name, since `stringify` is `none` there
too). -/
theorem createKey_unfold (name : String) (p : JValue) :
    createKey name p =
      match stringify (deepSortObject p) with
      | none => name
      | some s =>
        if s = "" then name
        else name ++ "|" ++ padStart (jsHexString (toInt32 (tinySimpleHash s))) 8 := by
  cases p <;> rfl

theorem specSort_eq_jundef (p : JValue) (h : specSort p = .jundef) :
    p = .jundef := by
  cases p <;> first | rfl | exact JValue.noConfusion h

/-- C4: the derived key only depends on the payload up to recursive key
sorting (`specSort` is the sorting described by the spec, with array order
preserved). -/
theorem createKey_deterministic (name : String) (p1 p2 : JValue)
    (h : specSort p1 = specSort p2) :
    createKey name p1 = createKey name p2 := by
  by_cases h1 : p1 = JValue.jundef
  · have h2 : p2 = JValue.jundef := by
      apply specSort_eq_jundef
      rw [← h, h1]
      rfl
    rw [h1, h2]
  · have h2 : p2 ≠ JValue.jundef := by
      intro hc
      apply h1
      apply specSort_eq_jundef
      rw [h, hc]
      rfl
    have hd : deepSortObject p1 = deepSortObject p2 := by
      rw [← deepSortObject_specSort p1, ← deepSortObject_specSort p2, h]
    rw [createKey_unfold name p1, createKey_unfold name p2, hd]

/-- Witness for C4 at a concrete pair of payloads that differ only in key
order. -/
theorem createKey_deterministic_witness :
    createKey "users" (JValue.jobj (.cons "b" (.jnum 2) (.cons "a" (.jnum 1) .nil))) =
      createKey "users" (JValue.jobj (.cons "a" (.jnum 1) (.cons "b" (.jnum 2) .nil))) :=
  createKey_deterministic "users" _ _ rfl

/-! ## C5: shape of the key -/

theorem length_toDigitsCore_le (b : Nat) :
    (fuel n : Nat) → (ds : List Char) →
    ds.length ≤ (Nat.toDigitsCore b fuel n ds).length
  | 0, _, _ => le_refl _
  | fuel + 1, n, ds => by
    simp only [Nat.toDigitsCore]
    by_cases h : n / b = 0
    · simp [h]
    · simp only [h, if_neg]
      calc ds.length ≤ (Nat.digitChar (n % b) :: ds).length := by simp
        _ ≤ _ := length_toDigitsCore_le b fuel (n / b) _

theorem length_toDigitsCore_pos (b : Nat) :
    (fuel n : Nat) → (ds : List Char) → 0 < fuel →
    ds.length < (Nat.toDigitsCore b fuel n ds).length
  | 0, _, _, h => absurd h (lt_irrefl 0)
  | fuel + 1, n, ds, _ => by
    simp only [Nat.toDigitsCore]
    by_cases h : n / b = 0
    · simp [h]
    · simp only [h, if_neg]
      calc ds.length < (Nat.digitChar (n % b) :: ds).length := by simp
        _ ≤ _ := length_toDigitsCore_le b fuel (n / b) _

/-- Every `stringify` output is a nonempty string (so the falsiness check on
the JSON encoding only fires for `undefined`). -/
theorem stringify_ne_empty (v : JValue) (s : String) (h : stringify v = some s) :
    s ≠ "" := by
  have hlen : 0 < s.length := by
    cases v <;> simp only [stringify, Option.some.injEq] at h
    case jnull => rw [← h]; decide
    case jbool b => cases b <;> rw [← h] <;> decide
    case jnum n =>
      rw [← h]
      show 0 < (Int.repr n).length
      cases n with
      | ofNat m =>
        show 0 < (Nat.repr m).length
        unfold Nat.repr Nat.toDigits
        simp only [List.asString, String.length]
        exact length_toDigitsCore_pos 10 (m + 1) m [] (Nat.succ_pos m)
      | negSucc m =>
        show 0 < ("-" ++ Nat.repr (m + 1)).length
        simp only [String.length_append]
        have : 0 < "-".length := by decide
        omega
    case jstr t =>
      rw [← h]
      simp only [jsonQuote, String.length_append]
      have : 0 < "\"".length := by decide
      omega
    case jarr xs =>
      rw [← h]
      simp only [String.length_append]
      have : 0 < "[".length := by decide
      omega
    case jobj fs =>
      rw [← h]
      simp only [String.length_append]
      have : 0 < "\x7b".length := by decide
      omega
    case jundef => exact Option.noConfusion h
    case jfunc => exact Option.noConfusion h
  intro he
  rw [he] at hlen
  exact absurd hlen (by decide)

theorem hexDigits_length_le : (fuel n : Nat) → (hexDigits fuel n).length ≤ fuel
  | 0, _ => le_refl 0
  | fuel + 1, n => by
    show (if n < 16 then [hexChar n]
        else hexDigits fuel (n / 16) ++ [hexChar (n % 16)]).length ≤ fuel + 1
    by_cases h : n < 16
    · rw [if_pos h]
      simp
    · rw [if_neg h]
      simp only [List.length_append, List.length_cons, List.length_nil]
      have := hexDigits_length_le fuel (n / 16)
      omega

theorem isHexDigitChar_hexChar (m : Nat) (h : m < 16) :
    isHexDigitChar (hexChar m) = true := by
  interval_cases m <;> decide

theorem hexDigits_all_hex : (fuel n : Nat) → (c : Char) →
    c ∈ hexDigits fuel n → isHexDigitChar c = true
  | 0, _, _, h => absurd h (List.not_mem_nil _)
  | fuel + 1, n, c, h => by
    have h2 : c ∈ (if n < 16 then [hexChar n]
        else hexDigits fuel (n / 16) ++ [hexChar (n % 16)]) := h
    by_cases hn : n < 16
    · rw [if_pos hn] at h2
      rw [List.mem_singleton.mp h2]
      exact isHexDigitChar_hexChar n hn
    · rw [if_neg hn] at h2
      rcases List.mem_append.mp h2 with h3 | h3
      · exact hexDigits_all_hex fuel (n / 16) c h3
      · rw [List.mem_singleton.mp h3]
        exact isHexDigitChar_hexChar (n % 16) (Nat.mod_lt n (by omega))

theorem padStart_length (h : String) (len : Nat) :
    (padStart h len).length = max len h.length := by
  simp only [padStart, String.length_append]
  show (List.replicate (len - h.length) '0').length + h.length = max len h.length
  simp only [List.length_replicate]
  omega

theorem padStart_all_hex (h : String) (len : Nat)
    (hh : h.data.all isHexDigitChar = true) :
    (padStart h len).data.all isHexDigitChar = true := by
  show ((String.mk (List.replicate (len - h.length) '0')).data ++ h.data).all
      isHexDigitChar = true
  simp only [List.all_append, Bool.and_eq_true]
  constructor
  · simp only [List.all_eq_true]
    intro c hc
    rw [List.eq_of_mem_replicate hc]
    decide
  · exact hh

/-- C5, amended: an `undefined` payload yields the bare name; a provided,
serializable payload yields `name|hash` where the hash segment is the
base-16 rendering of the *signed* 32-bit hash zero-padded to at least 8
characters.  When the hash is non-negative the segment is exactly 8 lowercase
hex characters (the behaviour the spec describes); when the hash is negative
the segment still contains the minus sign of `toString(16)` — the padding
zeros go in front of the sign (`0-f68874`) — and is 8 or 9 characters long,
not all of them hex digits. -/
theorem createKey_format :
    (∀ name, createKey name JValue.jundef = name) ∧
    (∀ (name : String) (p : JValue) (s : String),
      stringify (deepSortObject p) = some s →
      createKey name p =
        name ++ "|" ++ padStart (jsHexString (toInt32 (tinySimpleHash s))) 8 ∧
      8 ≤ (padStart (jsHexString (toInt32 (tinySimpleHash s))) 8).length ∧
      (0 ≤ toInt32 (tinySimpleHash s) →
        (padStart (jsHexString (toInt32 (tinySimpleHash s))) 8).length = 8 ∧
        (padStart (jsHexString (toInt32 (tinySimpleHash s))) 8).data.all
          isHexDigitChar = true) ∧
      (toInt32 (tinySimpleHash s) < 0 →
        ('-') ∈ (padStart (jsHexString (toInt32 (tinySimpleHash s))) 8).data ∧
        (padStart (jsHexString (toInt32 (tinySimpleHash s))) 8).length ≤ 9 ∧
        (padStart (jsHexString (toInt32 (tinySimpleHash s))) 8).data.all
          isHexDigitChar = false)) := by
  constructor
  · intro name
    rfl
  · intro name p s hs
    have hmain : createKey name p =
        name ++ "|" ++ padStart (jsHexString (toInt32 (tinySimpleHash s))) 8 := by
      rw [createKey_unfold name p, hs]
      exact if_neg (stringify_ne_empty (deepSortObject p) s hs)
    refine ⟨hmain, ?_, ?_, ?_⟩
    · rw [padStart_length]
      omega
    · intro hpos
      have hneg : ¬ toInt32 (tinySimpleHash s) < 0 := not_lt.mpr hpos
      have hlen : (jsHexString (toInt32 (tinySimpleHash s))).length ≤ 8 := by
        simp only [jsHexString, hneg, if_neg]
        show (hexDigits 8 (toInt32 (tinySimpleHash s)).toNat).length ≤ 8
        exact hexDigits_length_le 8 _
      constructor
      · rw [padStart_length]
        omega
      · apply padStart_all_hex
        simp only [jsHexString, hneg, if_neg]
        show (hexDigits 8 (toInt32 (tinySimpleHash s)).toNat).all
            isHexDigitChar = true
        simp only [List.all_eq_true]
        intro c hc
        exact hexDigits_all_hex 8 _ c hc
    · intro hneg
      have hjs : jsHexString (toInt32 (tinySimpleHash s)) =
          "-" ++ String.mk (hexDigits 8 (toInt32 (tinySimpleHash s)).natAbs) := by
        simp only [jsHexString, if_pos hneg]
      have hdata : (jsHexString (toInt32 (tinySimpleHash s))).data =
          '-' :: hexDigits 8 (toInt32 (tinySimpleHash s)).natAbs := by
        rw [hjs]
        rfl
      have hpad : (padStart (jsHexString (toInt32 (tinySimpleHash s))) 8).data =
          List.replicate
              (8 - (jsHexString (toInt32 (tinySimpleHash s))).length) '0' ++
            (jsHexString (toInt32 (tinySimpleHash s))).data := rfl
      have hmem : ('-') ∈
          (padStart (jsHexString (toInt32 (tinySimpleHash s))) 8).data := by
        rw [hpad, hdata]
        exact List.mem_append.mpr (Or.inr (List.mem_cons_self _ _))
      refine ⟨hmem, ?_, ?_⟩
      · rw [padStart_length]
        have h8 := hexDigits_length_le 8 (toInt32 (tinySimpleHash s)).natAbs
        have hl : (jsHexString (toInt32 (tinySimpleHash s))).length =
            (hexDigits 8 (toInt32 (tinySimpleHash s)).natAbs).length + 1 := by
          show (jsHexString (toInt32 (tinySimpleHash s))).data.length = _
          rw [hdata]
          rfl
        omega
      · cases hall : (padStart (jsHexString (toInt32 (tinySimpleHash s))) 8).data.all
            isHexDigitChar
        · rfl
        · have := List.all_eq_true.mp hall '-' hmem
          exact absurd this (by decide)

/-- Witness for the amended C5 at two concrete payloads: `1`, whose 32-bit
hash is non-negative, and `74`, whose hash is negative so the padded segment
(`0-f68874`) keeps the minus sign. -/
theorem createKey_format_witness :
    createKey "k" (JValue.jnum 1) =
      "k" ++ "|" ++ padStart (jsHexString (toInt32 (tinySimpleHash "1"))) 8 ∧
    ('-') ∈ (padStart (jsHexString (toInt32 (tinySimpleHash "74"))) 8).data :=
  ⟨(createKey_format.2 "k" (JValue.jnum 1) "1" rfl).1,
    ((createKey_format.2 "x" (JValue.jnum 74) "74" rfl).2.2.2 (by decide)).1⟩

/-- Counterexample to C5 as stated: for the payload `7` the 32-bit hash is
negative, so the hash segment is `-68010ac7` — nine characters, containing a
character that is not a hex digit. -/
theorem createKey_format_counterexample :
    ¬ ∃ hseg : String,
      createKey "x" (JValue.jnum 7) = "x" ++ "|" ++ hseg ∧
      hseg.length = 8 ∧ hseg.data.all isHexDigitChar = true := by
  rintro ⟨hseg, he, hlen, _⟩
  have hck : createKey "x" (JValue.jnum 7) = "x|-68010ac7" := rfl
  rw [hck] at he
  have := congrArg String.length he
  simp only [String.length_append] at this
  rw [show ("x|-68010ac7" : String).length = 11 from rfl,
    show ("x" : String).length = 1 from rfl,
    show ("|" : String).length = 1 from rfl] at this
  omega

/-- C10: a provided payload whose deep-sorted form does not JSON-serialize
(here: a function value) produces the bare name, the same key as an absent
payload. -/
theorem createKey_unserializable (name : String) (p : JValue)
    (h : stringify (deepSortObject p) = none) :
    createKey name p = name ∧ createKey name p = createKey name JValue.jundef := by
  have hm : createKey name p = name := by
    rw [createKey_unfold name p, h]
  exact ⟨hm, hm⟩

/-- Witness for C10 at a function payload. -/
theorem createKey_unserializable_witness :
    createKey "q" JValue.jfunc = "q" ∧
      createKey "q" JValue.jfunc = createKey "q" JValue.jundef :=
  createKey_unserializable "q" JValue.jfunc rfl

/-! ## Characterization of the composed pipeline -/

theorem dispatchF_succ_eq (mws : List Nat) (tail : Option Nat) (fl i : Nat)
    (s : PipeSt) :
    dispatchF mws tail (fl + 1) i s =
      if s.err.isSome then s
      else if (i : Int) ≤ s.index then { s with err := some nextTwiceMsg }
      else
        let s1 : PipeSt := { s with index := (i : Int) }
        match stageAt mws tail i with
        | none => s1
        | some k =>
          iterN (dispatchF mws tail fl (i + 1)) k { s1 with trace := s1.trace ++ [i] } :=
  rfl

theorem dispatchF_stuck (mws : List Nat) (tail : Option Nat) (fuel i : Nat)
    (s : PipeSt) (h : s.err.isSome = true) :
    dispatchF mws tail fuel i s = s := by
  cases fuel
  · show (if s.err.isSome then s else _) = s
    rw [if_pos h]
  · rw [dispatchF_succ_eq, if_pos h]

theorem iterN_fix (f : PipeSt → PipeSt) (s : PipeSt) (h : f s = s) :
    ∀ k, iterN f k s = s
  | 0 => rfl
  | k + 1 => by
    show iterN f k (f s) = s
    rw [h]
    exact iterN_fix f s h k

theorem stageAt_eq (mws : List Nat) (tail : Option Nat) (i : Nat) :
    stageAt mws tail i = (mws ++ tail.toList).get? i := by
  by_cases h : i < mws.length
  · rw [List.get?_append h]
    simp [stageAt, h, List.get?_eq_get h]
  · rw [List.get?_append_right (le_of_not_lt h)]
    by_cases h2 : i = mws.length
    · subst h2
      simp only [stageAt, h, Nat.sub_self]
      cases tail <;> simp
    · have h3 : 1 ≤ i - mws.length := by omega
      simp only [stageAt, h, h2]
      cases tail
      · simp
      · simp only [Option.toList]
        rw [List.get?_eq_none.mpr]
        · simp
        · simpa using h3

theorem runSpec_cons_zero (rest : List Nat) :
    runSpec (0 :: rest) = ⟨1, true, false⟩ := by
  simp [runSpec]

theorem runSpec_cons_ne (k : Nat) (rest : List Nat) (h : ¬ k = 0) :
    runSpec (k :: rest) =
      ⟨(runSpec rest).m + 1, (runSpec rest).stopped,
        (runSpec rest).dbl || decide (2 ≤ k)⟩ := by
  simp [runSpec, h]

theorem runSpec_stopped_le_m (l : List Nat) :
    (if (runSpec l).stopped then 1 else 0) ≤ (runSpec l).m := by
  cases l with
  | nil => simp [runSpec]
  | cons k rest =>
    by_cases h : k = 0
    · subst h
      rw [runSpec_cons_zero]
      simp
    · rw [runSpec_cons_ne k rest h]
      split <;> simp

theorem runSpec_m_le (l : List Nat) :
    ∀ i, l.get? i = some 0 → (runSpec l).m ≤ i + 1 := by
  induction l with
  | nil => intro i h; exact absurd h (by simp)
  | cons k rest ih =>
    intro i h
    by_cases hk : k = 0
    · subst hk
      rw [runSpec_cons_zero]
      show 1 ≤ i + 1
      omega
    · cases i with
      | zero =>
        simp only [List.get?, Option.some.injEq] at h
        exact absurd h.symm (fun h2 => hk h2.symm)
      | succ i2 =>
        simp only [List.get?] at h
        have := ih i2 h
        rw [runSpec_cons_ne k rest hk]
        simp only []
        omega

theorem runSpec_dbl_of (l : List Nat) :
    ∀ i k, l.get? i = some k → 2 ≤ k → i < (runSpec l).m →
    (runSpec l).dbl = true := by
  induction l with
  | nil => intro i k h; exact absurd h (by simp)
  | cons k0 rest ih =>
    intro i k h hk hm
    cases i with
    | zero =>
      simp only [List.get?, Option.some.injEq] at h
      subst h
      have hk0 : ¬ k0 = 0 := by omega
      rw [runSpec_cons_ne k0 rest hk0]
      simp only [Bool.or_eq_true, decide_eq_true_eq]
      exact Or.inr hk
    | succ i2 =>
      simp only [List.get?] at h
      by_cases hk0 : k0 = 0
      · subst hk0
        rw [runSpec_cons_zero] at hm
        simp at hm
      · rw [runSpec_cons_ne k0 rest hk0] at hm ⊢
        simp only [Bool.or_eq_true]
        exact Or.inl (ih i2 k h hk (by simp at hm; omega))

/-- Complete characterization of `dispatch(i)` on a fresh entry (`index =
i - 1`, no pending error): writing `r` for the reference walk over the stage
suffix from `i`, the run bumps the index to the last dispatched position,
appends exactly the executed stage indices `i, i+1, ...` to the trace, and
errors with `nextTwiceMsg` precisely when some executed stage called `next`
at least twice. -/
theorem dispatchF_char (mws : List Nat) (tail : Option Nat) :
    ∀ (fuel i : Nat) (s : PipeSt),
    mws.length + tail.toList.length + 1 < fuel + i →
    i ≤ mws.length + tail.toList.length →
    s.err = none → s.index = (i : Int) - 1 →
    dispatchF mws tail fuel i s =
      { index := (i : Int) + ((runSpec ((mws ++ tail.toList).drop i)).m : Int) -
          (if (runSpec ((mws ++ tail.toList).drop i)).stopped then 1 else 0),
        trace := s.trace ++ List.range' i (runSpec ((mws ++ tail.toList).drop i)).m,
        err := if (runSpec ((mws ++ tail.toList).drop i)).dbl then some nextTwiceMsg
          else none } := by
  intro fuel
  induction fuel with
  | zero =>
    intro i s hfuel hi _ _
    omega
  | succ fl ih =>
    intro i s hfuel hi herr hidx
    obtain ⟨idx, tr, er⟩ := s
    simp only at herr hidx
    subst herr
    subst hidx
    have hlen : (mws ++ tail.toList).length = mws.length + tail.toList.length :=
      List.length_append _ _
    rw [dispatchF_succ_eq]
    rw [if_neg (by simp)]
    rw [if_neg (by simp)]
    simp only []
    cases hstage : stageAt mws tail i with
    | none =>
      have hget : (mws ++ tail.toList).get? i = none := by
        rw [← stageAt_eq, hstage]
      have hile : (mws ++ tail.toList).length ≤ i := List.get?_eq_none.mp hget
      have hieq : i = mws.length + tail.toList.length := by omega
      have hdrop : (mws ++ tail.toList).drop i = [] :=
        List.drop_eq_nil_of_le (by omega)
      rw [hdrop]
      simp [runSpec]
    | some k =>
      have hget : (mws ++ tail.toList).get? i = some k := by
        rw [← stageAt_eq, hstage]
      have hilt : i < (mws ++ tail.toList).length := by
        by_contra hc
        rw [List.get?_eq_none.mpr (le_of_not_lt hc)] at hget
        exact Option.noConfusion hget
      have hdrop : (mws ++ tail.toList).drop i =
          k :: (mws ++ tail.toList).drop (i + 1) := by
        rw [List.drop_eq_getElem_cons hilt]
        congr 1
        have := List.get?_eq_getElem? (mws ++ tail.toList) i
        rw [List.getElem?_eq_getElem hilt] at this
        rw [hget] at this
        exact (Option.some.injEq _ _ ▸ this).symm
      rw [hlen] at hilt
      rw [hdrop]
      cases k with
      | zero =>
        rw [runSpec_cons_zero]
        show iterN (dispatchF mws tail fl (i + 1)) 0 _ = _
        simp only [iterN, PipeSt.mk.injEq]
        dsimp only
        refine ⟨by simp, ?_, rfl⟩
        rw [List.range'_succ]
        simp [List.range']
      | succ j =>
        have hjne : ¬ (j + 1) = 0 := by omega
        rw [runSpec_cons_ne _ _ hjne]
        set r2 := runSpec ((mws ++ tail.toList).drop (i + 1)) with hr2
        have hmst : (if r2.stopped = true then 1 else 0) ≤ r2.m := by
          rw [hr2]
          exact runSpec_stopped_le_m _
        have hmstInt : (if r2.stopped = true then (1 : Int) else 0) ≤ (r2.m : Int) := by
          cases hstop : r2.stopped
          · simp
          · rw [hstop] at hmst
            simp only [if_pos rfl] at hmst ⊢
            exact_mod_cast hmst
        have hR1 := ih (i + 1) ⟨(i : Int), tr ++ [i], none⟩
          (by omega) (by omega) rfl (by simp)
        rw [← hr2] at hR1
        show iterN (dispatchF mws tail fl (i + 1)) j
            (dispatchF mws tail fl (i + 1) ⟨(i : Int), tr ++ [i], none⟩) = _
        rw [hR1]
        dsimp only
        have htr : (tr ++ [i]) ++ List.range' (i + 1) r2.m =
            tr ++ List.range' i (r2.m + 1) := by
          rw [List.range'_succ]
          simp
        cases hd2 : r2.dbl with
        | true =>
          rw [iterN_fix _
            ⟨((i + 1 : Nat) : Int) + (r2.m : Int) - (if r2.stopped = true then 1 else 0),
              (tr ++ [i]) ++ List.range' (i + 1) r2.m,
              if true = true then some nextTwiceMsg else none⟩
            (dispatchF_stuck mws tail fl (i + 1)
              ⟨((i + 1 : Nat) : Int) + (r2.m : Int) - (if r2.stopped = true then 1 else 0),
                (tr ++ [i]) ++ List.range' (i + 1) r2.m,
                if true = true then some nextTwiceMsg else none⟩ rfl) j]
          simp only [PipeSt.mk.injEq]
          refine ⟨by push_cast; ring, htr, by simp⟩
        | false =>
          cases j with
          | zero =>
            show (⟨_, _, _⟩ : PipeSt) = _
            simp only [PipeSt.mk.injEq]
            refine ⟨by push_cast; ring, htr, by simp⟩
          | succ j2 =>
            obtain ⟨fl2, rfl⟩ : ∃ fl2, fl = fl2 + 1 := by
              refine ⟨fl - 1, ?_⟩
              omega
            show iterN (dispatchF mws tail (fl2 + 1) (i + 1)) j2
                (dispatchF mws tail (fl2 + 1) (i + 1)
                  ⟨((i + 1 : Nat) : Int) + (r2.m : Int) -
                      (if r2.stopped = true then 1 else 0),
                    (tr ++ [i]) ++ List.range' (i + 1) r2.m,
                    if false = true then some nextTwiceMsg else none⟩) = _
            rw [dispatchF_succ_eq]
            rw [if_neg (by simp)]
            rw [if_pos (by dsimp only; omega)]
            rw [iterN_fix _
              ⟨((i + 1 : Nat) : Int) + (r2.m : Int) - (if r2.stopped = true then 1 else 0),
                (tr ++ [i]) ++ List.range' (i + 1) r2.m, some nextTwiceMsg⟩
              (dispatchF_stuck mws tail (fl2 + 1) (i + 1)
                ⟨((i + 1 : Nat) : Int) + (r2.m : Int) - (if r2.stopped = true then 1 else 0),
                  (tr ++ [i]) ++ List.range' (i + 1) r2.m, some nextTwiceMsg⟩ rfl) j2]
            simp only [PipeSt.mk.injEq]
            refine ⟨by push_cast; ring, htr, by simp⟩

/-- C2: if stage `i` of the composed pipeline returns without calling its
`next` continuation (its `next`-call count is `0`), then no stage beyond `i`
ever starts, and in particular the optional tail middleware (position
`middleware.length`) never executes. -/
theorem compose_short_circuit (mws : List Nat) (tail : Option Nat) (i : Nat)
    (h1 : mws.get? i = some 0) :
    (∀ j ∈ (composeRun mws tail).trace, j ≤ i) ∧
      mws.length ∉ (composeRun mws tail).trace := by
  have hilt : i < mws.length := by
    by_contra hc
    rw [List.get?_eq_none.mpr (le_of_not_lt hc)] at h1
    exact Option.noConfusion h1
  have hget : (mws ++ tail.toList).get? i = some 0 := by
    rw [List.get?_append hilt]
    exact h1
  have hchar := dispatchF_char mws tail (mws.length + tail.toList.length + 2) 0
    ⟨-1, [], none⟩ (by omega) (by omega) rfl (by simp)
  have hrun : composeRun mws tail =
      { index := (0 : Int) + ((runSpec ((mws ++ tail.toList).drop 0)).m : Int) -
          (if (runSpec ((mws ++ tail.toList).drop 0)).stopped then 1 else 0),
        trace := ([] : List Nat) ++
          List.range' 0 (runSpec ((mws ++ tail.toList).drop 0)).m,
        err := if (runSpec ((mws ++ tail.toList).drop 0)).dbl then some nextTwiceMsg
          else none } := hchar
  rw [List.drop_zero] at hrun
  have hm : (runSpec (mws ++ tail.toList)).m ≤ i + 1 :=
    runSpec_m_le (mws ++ tail.toList) i hget
  constructor
  · intro j hj
    rw [hrun] at hj
    simp only [List.nil_append] at hj
    have := List.mem_range'_1.mp hj
    omega
  · intro hmem
    rw [hrun] at hmem
    simp only [List.nil_append] at hmem
    have := List.mem_range'_1.mp hmem
    omega

/-- Witness for C2: in `compose` of stages `[0, 5]` with a tail stage, stage
`0` short-circuits, so only stage `0` runs and the tail (position `2`) never
does. -/
theorem compose_short_circuit_witness :
    (∀ j ∈ (composeRun [0, 5] (some 3)).trace, j ≤ 0) ∧
      2 ∉ (composeRun [0, 5] (some 3)).trace :=
  compose_short_circuit [0, 5] (some 3) 0 rfl

/-- C3: if a stage that actually executes calls `next` at least twice, the
run ends with the `"next() called multiple times"` error (propagated to the
caller, not swallowed), and the trace is still the plain prefix of stage
indices — each stage started at most once, so nothing downstream ran off the
repeated call. -/
theorem compose_double_next (mws : List Nat) (tail : Option Nat) (i k : Nat)
    (h1 : stageAt mws tail i = some k) (h2 : 2 ≤ k)
    (h3 : i ∈ (composeRun mws tail).trace) :
    (composeRun mws tail).err = some nextTwiceMsg ∧
      (composeRun mws tail).trace =
        List.range' 0 (runSpec (mws ++ tail.toList)).m ∧
      (composeRun mws tail).trace.Nodup := by
  have hchar := dispatchF_char mws tail (mws.length + tail.toList.length + 2) 0
    ⟨-1, [], none⟩ (by omega) (by omega) rfl (by simp)
  have hrun : composeRun mws tail =
      { index := (0 : Int) + ((runSpec ((mws ++ tail.toList).drop 0)).m : Int) -
          (if (runSpec ((mws ++ tail.toList).drop 0)).stopped then 1 else 0),
        trace := ([] : List Nat) ++
          List.range' 0 (runSpec ((mws ++ tail.toList).drop 0)).m,
        err := if (runSpec ((mws ++ tail.toList).drop 0)).dbl then some nextTwiceMsg
          else none } := hchar
  rw [List.drop_zero] at hrun
  have him : i < (runSpec (mws ++ tail.toList)).m := by
    rw [hrun] at h3
    simp only [List.nil_append] at h3
    have := List.mem_range'_1.mp h3
    omega
  have hdbl : (runSpec (mws ++ tail.toList)).dbl = true := by
    apply runSpec_dbl_of (mws ++ tail.toList) i k _ h2 him
    rw [← stageAt_eq]
    exact h1
  rw [hrun]
  simp only [List.nil_append]
  refine ⟨by simp [hdbl], trivial, List.nodup_range' 0 _⟩

/-- Witness for C3: a single stage that calls `next` twice makes the run end
in the `"next() called multiple times"` error. -/
theorem compose_double_next_witness :
    (composeRun [2] none).err = some nextTwiceMsg ∧
      (composeRun [2] none).trace =
        List.range' 0 (runSpec ([2] ++ (none : Option Nat).toList)).m ∧
      (composeRun [2] none).trace.Nodup :=
  compose_double_next [2] none 0 2 rfl (le_refl 2) (by decide)

/-! ## C1: dispatch order defines observation order -/

theorem foldl_filterQueueAdd (pred : AnyActionM → Bool) :
    ∀ (l : List AnyActionM) (init : List AnyActionM),
    l.foldl (filterQueueAdd pred) init = init ++ l.filter pred
  | [], init => by simp
  | v :: rest, init => by
    show (v :: rest).foldl (filterQueueAdd pred) init = _
    rw [List.foldl_cons, foldl_filterQueueAdd pred rest]
    cases h : pred v
    · simp [filterQueueAdd, h, List.filter_cons]
    · simp [filterQueueAdd, h, List.filter_cons]

/-- C1: if action `a` is sent before action `b` in one dispatch sequence
(possibly inside one dispatched array), then every subscriber whose pattern
matches both buffers `a` strictly before `b`. -/
theorem bus_dispatch_order (pat : ActionPat)
    (batches : List (AnyActionM ⊕ List AnyActionM)) (a b : AnyActionM)
    (l1 l2 l3 : List AnyActionM)
    (hflat : dispatchedStream batches = l1 ++ a :: (l2 ++ b :: l3))
    (ha : matcher pat a = true) (hb : matcher pat b = true) :
    ∃ u v w, observeQueue (matcher pat) batches =
      u ++ a :: (v ++ b :: w) := by
  refine ⟨l1.filter (matcher pat), l2.filter (matcher pat),
    l3.filter (matcher pat), ?_⟩
  rw [observeQueue, foldl_filterQueueAdd, hflat]
  simp [List.filter_append, List.filter_cons, ha, hb]

/-- Witness for C1: dispatching the array `[a, b]` and subscribing to `"*"`
observes `a` strictly before `b`. -/
theorem bus_dispatch_order_witness :
    ∃ u v w, observeQueue (matcher (.str "*"))
        [Sum.inr [⟨"a", JValue.jnull⟩, ⟨"b", JValue.jnull⟩]] =
      u ++ (⟨"a", JValue.jnull⟩ : AnyActionM) ::
        (v ++ (⟨"b", JValue.jnull⟩ : AnyActionM) :: w) :=
  bus_dispatch_order (.str "*") [Sum.inr [⟨"a", JValue.jnull⟩, ⟨"b", JValue.jnull⟩]]
    ⟨"a", JValue.jnull⟩ ⟨"b", JValue.jnull⟩ [] [] [] rfl rfl rfl

/-! ## C6/C7: the update pipeline -/

theorem composeSeq_tail_run {S P : Type} :
    ∀ (idxs : List Nat) (c : UpdaterCtxM S P × UpdSt S P),
    composeSeq (idxs.map userMdw ++
        [logMdw, notifyChannelMdw, notifyListenersMdw]) c =
      (c.1, ⟨c.2.state,
        c.2.events ++ idxs.map StoreEv.userPre ++
          [StoreEv.logAction, StoreEv.chanSend, StoreEv.notifyListeners] ++
          idxs.reverse.map StoreEv.userPost⟩)
  | [], c => by
    simp [composeSeq, logMdw, notifyChannelMdw, notifyListenersMdw, pushEv]
  | i :: rest, c => by
    show pushEv (.userPost i)
        (composeSeq (rest.map userMdw ++
          [logMdw, notifyChannelMdw, notifyListenersMdw])
          (pushEv (.userPre i) c)) = _
    rw [composeSeq_tail_run rest (pushEv (.userPre i) c)]
    simp [pushEv]

/-- C7: one `update()` call runs its stages in the fixed order — the
mutation stage records the patch list and installs the snapshot first, then
each user middleware starts in list order, then the store-update action is
dispatched, then the store-changed channel fires, then the raw listeners
run (the after-`next` halves of the user middleware unwind last, in reverse
order).  In particular every stage other than the mutation stage observes
the already-installed snapshot. -/
theorem update_stage_order {S P : Type} (diff : S → S → List P) (n : Nat)
    (ups : (S → S) ⊕ List (S → S)) (s0 : S) :
    (updateRun diff n ups s0).2.state = applyAll (normUpdater ups) s0 ∧
    (updateRun diff n ups s0).2.events =
      [StoreEv.patchesSet (diff s0 (applyAll (normUpdater ups) s0)),
        StoreEv.commit (applyAll (normUpdater ups) s0)] ++
      (List.range n).map StoreEv.userPre ++
      [StoreEv.logAction, StoreEv.chanSend, StoreEv.notifyListeners] ++
      (List.range n).reverse.map StoreEv.userPost := by
  have hrun : updateRun diff n ups s0 =
      composeSeq ((List.range n).map userMdw ++
        [logMdw, notifyChannelMdw, notifyListenersMdw])
        (⟨ups, diff s0 (applyAll (normUpdater ups) s0)⟩,
          ⟨applyAll (normUpdater ups) s0,
            [] ++ [StoreEv.patchesSet (diff s0 (applyAll (normUpdater ups) s0)),
              StoreEv.commit (applyAll (normUpdater ups) s0)]⟩) := rfl
  rw [hrun, composeSeq_tail_run]
  simp

/-- C6: an `update()` call with a list of mutators performs exactly one
commit — all mutators fold over one draft in list order, one snapshot
reflecting all of them is installed, and exactly one patch list (the diff of
old and new snapshot) is recorded on the updater context. -/
theorem update_single_commit {S P : Type} (diff : S → S → List P) (n : Nat)
    (us : List (S → S)) (s0 : S) :
    commitsOf (updateRun diff n (.inr us) s0).2.events = [applyAll us s0] ∧
    patchSetsOf (updateRun diff n (.inr us) s0).2.events =
      [diff s0 (applyAll us s0)] ∧
    (updateRun diff n (.inr us) s0).1.patches = diff s0 (applyAll us s0) := by
  have h := update_stage_order diff n (.inr (us : List (S → S))) s0
  have hctx : (updateRun diff n (.inr us) s0).1 =
      ⟨.inr us, diff s0 (applyAll us s0)⟩ := by
    have hrun : updateRun diff n (.inr us) s0 =
        composeSeq ((List.range n).map userMdw ++
          [logMdw, notifyChannelMdw, notifyListenersMdw])
          (⟨.inr us, diff s0 (applyAll us s0)⟩,
            ⟨applyAll us s0,
              [] ++ [StoreEv.patchesSet (diff s0 (applyAll us s0)),
                StoreEv.commit (applyAll us s0)]⟩) := rfl
    rw [hrun, composeSeq_tail_run]
  refine ⟨?_, ?_, by rw [hctx]⟩
  · rw [h.2]
    show commitsOf (_ ++ _ ++ _ ++ _) = _
    simp only [commitsOf, List.filterMap_append, List.filterMap_map]
    simp [normUpdater, Function.comp]
  · rw [h.2]
    simp only [patchSetsOf, List.filterMap_append, List.filterMap_map]
    simp [normUpdater, Function.comp]

/-! ## C8: latest-wins keeps at most one instance alive -/

theorem aliveFold_cons (acc : List Nat) (ev : TLEv) (evs : List TLEv) :
    aliveFold acc (ev :: evs) =
      aliveFold
        (match ev with
        | .spawned i => i :: acc
        | .haltDone i => acc.erase i
        | .selfDone i => acc.erase i) evs :=
  rfl

theorem tlGo_alive_le_one :
    ∀ (oracle : List Bool) (running : Option Nat) (i n : Nat),
    (aliveFold running.toList ((tlGo running i oracle).take n)).length ≤ 1
  | [], running, i, n => by
    cases running <;> simp [tlGo, aliveFold]
  | c :: rest, none, i, n => by
    cases c <;>
    · show (aliveFold []
        ((TLEv.spawned i :: tlGo (some i) (i + 1) rest).take n)).length ≤ 1
      cases n with
      | zero => simp [aliveFold]
      | succ m =>
        rw [List.take_succ_cons, aliveFold_cons]
        exact tlGo_alive_le_one rest (some i) (i + 1) m
  | c :: rest, some j, i, n => by
    cases c with
    | true =>
      show (aliveFold [j] ((TLEv.selfDone j :: TLEv.spawned i ::
        tlGo (some i) (i + 1) rest).take n)).length ≤ 1
      match n with
      | 0 => simp [aliveFold]
      | 1 => simp [aliveFold, List.erase_cons_head]
      | m + 2 =>
        rw [List.take_succ_cons, List.take_succ_cons, aliveFold_cons,
          aliveFold_cons]
        dsimp only
        rw [List.erase_cons_head]
        exact tlGo_alive_le_one rest (some i) (i + 1) m
    | false =>
      show (aliveFold [j] ((TLEv.haltDone j :: TLEv.spawned i ::
        tlGo (some i) (i + 1) rest).take n)).length ≤ 1
      match n with
      | 0 => simp [aliveFold]
      | 1 => simp [aliveFold, List.erase_cons_head]
      | m + 2 =>
        rw [List.take_succ_cons, List.take_succ_cons, aliveFold_cons,
          aliveFold_cons]
        dsimp only
        rw [List.erase_cons_head]
        exact tlGo_alive_le_one rest (some i) (i + 1) m

theorem tlGo_spawn_clear :
    ∀ (oracle : List Bool) (running : Option Nat) (i n m : Nat),
    (tlGo running i oracle).get? n = some (.spawned m) →
    aliveFold running.toList ((tlGo running i oracle).take n) = []
  | [], running, i, n, m => by
    intro h
    simp [tlGo] at h
  | c :: rest, none, i, n, m => by
    cases c <;>
    · show (tlGo none i _).get? n = _ →
        aliveFold [] ((tlGo none i _).take n) = []
      show (TLEv.spawned i :: tlGo (some i) (i + 1) rest).get? n = _ →
        aliveFold [] ((TLEv.spawned i :: tlGo (some i) (i + 1) rest).take n) = []
      cases n with
      | zero => intro _; rfl
      | succ m2 =>
        intro h
        rw [List.take_succ_cons, aliveFold_cons]
        exact tlGo_spawn_clear rest (some i) (i + 1) m2 m h
  | c :: rest, some j, i, n, m => by
    cases c with
    | true =>
      show (TLEv.selfDone j :: TLEv.spawned i ::
          tlGo (some i) (i + 1) rest).get? n = _ →
        aliveFold [j] ((TLEv.selfDone j :: TLEv.spawned i ::
          tlGo (some i) (i + 1) rest).take n) = []
      match n with
      | 0 => intro h; exact absurd h (by simp)
      | 1 =>
        intro _
        simp [aliveFold, List.erase_cons_head]
      | m2 + 2 =>
        intro h
        rw [List.take_succ_cons, List.take_succ_cons, aliveFold_cons,
          aliveFold_cons]
        dsimp only
        rw [List.erase_cons_head]
        exact tlGo_spawn_clear rest (some i) (i + 1) m2 m h
    | false =>
      show (TLEv.haltDone j :: TLEv.spawned i ::
          tlGo (some i) (i + 1) rest).get? n = _ →
        aliveFold [j] ((TLEv.haltDone j :: TLEv.spawned i ::
          tlGo (some i) (i + 1) rest).take n) = []
      match n with
      | 0 => intro h; exact absurd h (by simp)
      | 1 =>
        intro _
        simp [aliveFold, List.erase_cons_head]
      | m2 + 2 =>
        intro h
        rw [List.take_succ_cons, List.take_succ_cons, aliveFold_cons,
          aliveFold_cons]
        dsimp only
        rw [List.erase_cons_head]
        exact tlGo_spawn_clear rest (some i) (i + 1) m2 m h

/-- C8: under `takeLatest`, at most one handler instance is alive at any
point of the run (first conjunct: every prefix of the event log leaves at
most one spawned-but-not-ended instance), and whenever an instance is
spawned nothing is alive at that moment — the previous instance was either
halted to completion of its cleanup or had already finished (second
conjunct). -/
theorem takeLatest_at_most_one (oracle : List Bool) :
    (∀ n, (aliveFold [] ((takeLatestRun oracle).take n)).length ≤ 1) ∧
    (∀ n m, (takeLatestRun oracle).get? n = some (.spawned m) →
      aliveFold [] ((takeLatestRun oracle).take n) = []) :=
  ⟨fun n => tlGo_alive_le_one oracle none 0 n,
    fun n m h => tlGo_spawn_clear oracle none 0 n m h⟩

/-- Witness for C8 on two rapid dispatches whose first instance is still
running when the second arrives: the trace is
`[spawned 0, haltDone 0, spawned 1]`. -/
theorem takeLatest_at_most_one_witness :
    (aliveFold [] ((takeLatestRun [false, false]).take 3)).length ≤ 1 ∧
    aliveFold [] ((takeLatestRun [false, false]).take 2) = [] :=
  ⟨(takeLatest_at_most_one [false, false]).1 3,
    (takeLatest_at_most_one [false, false]).2 2 1 rfl⟩

/-! ## C9: poll cancellation -/

/-- Counterexample to C9 as stated: with an explicit `cancelType` configured
(`"B"` here), re-dispatching the action's own type (`"A"`) while the fire
loop of a triggered run is active does *not* stop that run — the race only
takes `cancelType || actionType`, a single type.  After `[A, A]` the
supervisor is still polling and no stop event was emitted. -/
theorem poll_same_type_counterexample :
    (pollRun "A" (some "B") 5 [.act "A" none, .act "A" none]).1 =
      PollPhase.polling 5 ∧
    PollEv.stopped ∉ (pollRun "A" (some "B") 5 [.act "A" none, .act "A" none]).2 := by
  decide

/-- C9, amended: while a triggered run is polling, dispatching an action of
the *resolved* cancel type — the configured `cancelType` when provided
(empty string aside), otherwise the action's own type — wins the race and
stops that run's loop; the outer loop is then back at `take(actionType)`,
and the next triggering action starts a fresh run (handler invoked once
immediately, with the payload's timer override when present). -/
theorem poll_cancel_stops_loop (actionType : String) (cancelType : Option String)
    (parentTimer timer : Nat) (p q : Option Nat) :
    pollStep actionType cancelType parentTimer (.polling timer)
        (.act (resolveCancel actionType cancelType) p) =
      (.waiting, [.stopped]) ∧
    pollStep actionType cancelType parentTimer .waiting (.act actionType q) =
      (.polling (resolveTimer parentTimer q),
        [.started (resolveTimer parentTimer q), .fired]) := by
  constructor
  · show (if resolveCancel actionType cancelType =
        resolveCancel actionType cancelType then _ else _) = _
    rw [if_pos rfl]
  · show (if actionType = actionType then _ else _) = _
    rw [if_pos rfl]
